import Mathlib

/-!
Shallow embedding of the FlexiQuote pricing engine
(`src/app/rules_engine.py`, with the quote orchestration from
`src/app/main.py`).

JSON values carried in a rule's `condition` / `parameters` mappings and in
the request attributes are modelled by `JVal`.  Python `Decimal` arithmetic
is modelled exactly in `ℚ` (the source funnels every number through
`Decimal(str(value))`, so the values that reach arithmetic are exact decimal
fractions).  Conversions that can raise in Python (`Decimal(str(v))`,
`int(v)`, `float(v)`, iterating a non-iterable, `.get` on a non-mapping,
an unhashable dict key) are modelled in `Option`, with `none` standing for a
raised exception.
-/

/-- A JSON value, as decoded by the service into Python objects.  `num`
carries the exact decimal value of a JSON number. -/
inductive JVal : Type
  | null : JVal
  | bool : Bool → JVal
  | num : ℚ → JVal
  | str : String → JVal
  | arr : List JVal → JVal
  | obj : List (String × JVal) → JVal

/-- A JSON object / Python dict with string keys (association list; keys of
a decoded JSON object are unique). -/
abbrev JDict := List (String × JVal)

/-- `d.get(k)` / `d[k]` lookup for a string key: first matching pair. -/
def dictGet (d : JDict) (k : String) : Option JVal :=
  (d.find? (fun kv => kv.1 == k)).map (fun kv => kv.2)

/-- `d.get(v)` on a Python dict whose keys are strings, where the key `v` is
an arbitrary value: a list or dict key is unhashable (`TypeError`, outer
`none`); any other non-string key simply misses. -/
def pyDictGet (d : JDict) (k : JVal) : Option (Option JVal) :=
  match k with
  | JVal.str s => some (dictGet d s)
  | JVal.arr _ => none
  | JVal.obj _ => none
  | _ => some none

mutual
/-- Python `==` on decoded JSON values: numbers and booleans compare by
numeric value, `None` equals only `None`, lists compare elementwise, dicts
compare as key-value mappings. -/
def pyEq : JVal → JVal → Bool
  | JVal.null, JVal.null => true
  | JVal.bool a, JVal.bool b => a == b
  | JVal.bool a, JVal.num q => (if a then (1 : ℚ) else 0) == q
  | JVal.num q, JVal.bool b => q == (if b then (1 : ℚ) else 0)
  | JVal.num a, JVal.num b => a == b
  | JVal.str a, JVal.str b => a == b
  | JVal.arr xs, JVal.arr ys => pyEqList xs ys
  | JVal.obj xs, JVal.obj ys => xs.length == ys.length && pyEqObjSub xs ys
  | _, _ => false
termination_by structural a _ => a

/-- Elementwise Python `==` of two lists. -/
def pyEqList : List JVal → List JVal → Bool
  | [], [] => true
  | x :: xs, y :: ys => pyEq x y && pyEqList xs ys
  | _, _ => false
termination_by structural xs _ => xs

/-- Every key of the first dict is present in the second with a
Python-equal value. -/
def pyEqObjSub : List (String × JVal) → List (String × JVal) → Bool
  | [], _ => true
  | (k, v) :: rest, ys =>
      (match (ys.find? (fun kv => kv.1 == k)).map (fun kv => kv.2) with
       | some w => pyEq v w
       | none => false) && pyEqObjSub rest ys
termination_by structural xs _ => xs
end

/-- Numeric value of a run of decimal digit characters. -/
def digitsToNat (cs : List Char) : ℕ :=
  cs.foldl (fun n c => n * 10 + (c.toNat - 48)) 0

/-- Body of a decimal numeral: digits, optionally split by one point, with
at least one digit overall. -/
def parseDecCore (cs : List Char) : Option ℚ :=
  let ip := cs.takeWhile Char.isDigit
  let rest := cs.dropWhile Char.isDigit
  match rest with
  | [] => if ip.isEmpty then none else some (digitsToNat ip : ℚ)
  | '.' :: fp =>
      if fp.all Char.isDigit && !(ip.isEmpty && fp.isEmpty) then
        some ((digitsToNat ip : ℚ) + (digitsToNat fp : ℚ) / (10 : ℚ) ^ fp.length)
      else none
  | _ => none

/-- `Decimal(s)` on a plain (sign, digits, optional point) numeral string;
`none` models the `InvalidOperation` raised on anything else. -/
def parseDecimal (s : String) : Option ℚ :=
  match s.toList with
  | '+' :: cs => parseDecCore cs
  | '-' :: cs => (parseDecCore cs).map (fun q => -q)
  | cs => parseDecCore cs

/-- `int(s)` on a string: optional sign then digits only. -/
def parseIntStr (s : String) : Option Int :=
  match s.toList with
  | '+' :: cs => if !cs.isEmpty && cs.all Char.isDigit then some (digitsToNat cs : Int) else none
  | '-' :: cs => if !cs.isEmpty && cs.all Char.isDigit then some (-(digitsToNat cs : Int)) else none
  | cs => if !cs.isEmpty && cs.all Char.isDigit then some (digitsToNat cs : Int) else none

/-- Truncation toward zero, as Python `int()` applied to a number. -/
def ratTrunc (q : ℚ) : Int :=
  if 0 ≤ q then q.floor else -(-q).floor

/-- `Decimal(str(value))` (`_to_decimal` and the inline uses in the source):
exact for a number, parses a numeral string, raises on anything else
(`str()` of `None`/`True`/lists/dicts is not a valid numeral). -/
def decimalOf : JVal → Option ℚ
  | JVal.num q => some q
  | JVal.str s => parseDecimal s
  | _ => none

/-- `int(value)`: truncates a number, accepts a bool, parses an integer
string, raises otherwise. -/
def intOf : JVal → Option Int
  | JVal.num q => some (ratTrunc q)
  | JVal.bool b => some (if b then 1 else 0)
  | JVal.str s => parseIntStr s
  | _ => none

/-- `float(value)`, modelled with exact rational semantics: accepts a
number, a bool, or a numeral string, raises otherwise. -/
def floatOf : JVal → Option ℚ
  | JVal.num q => some q
  | JVal.bool b => some (if b then 1 else 0)
  | JVal.str s => parseDecimal s
  | _ => none

/-- Python iteration over `value` as used for `parameters["tiers"]`: a list
yields its elements, a string its characters, a dict its keys; numbers,
booleans and `None` are not iterable (`TypeError`). -/
def listOf : JVal → Option (List JVal)
  | JVal.arr xs => some xs
  | JVal.str s => some (s.toList.map (fun c => JVal.str (String.singleton c)))
  | JVal.obj kvs => some (kvs.map (fun kv => JVal.str kv.1))
  | _ => none

/-- `value.items()` access: only a dict has it. -/
def dictOf : JVal → Option JDict
  | JVal.obj kvs => some kvs
  | _ => none

/-- `_round_currency`: quantize to 2 fractional digits with
`ROUND_HALF_UP` (ties away from zero). -/
def roundCur (q : ℚ) : ℚ :=
  if 0 ≤ q then (((q * 100 + 1 / 2).floor : ℤ) : ℚ) / 100
  else -((((-q * 100 + 1 / 2).floor : ℤ) : ℚ) / 100)

/-- A value that is exact to the cent: an integer number of hundredths. -/
def cent (q : ℚ) : Prop := ∃ k : ℤ, q = (k : ℚ) / 100

/-- `models.Product`: the fields the engine reads (`base_price` is a
`Numeric(12,2)` column, an exact decimal). -/
structure Product where
  id : Int
  base_price : ℚ

/-- `models.Rule`: the fields the engine reads.  `condition` and
`parameters` are nullable JSON columns. -/
structure Rule where
  id : Int
  name : String
  rule_type : String
  condition : Option JDict
  parameters : Option JDict
  is_active : Bool
  priority : Int

/-- `rules_engine.AppliedRule` (`amount` is the rounded increment; the
source stores it as `float(increment)` and recovers it with
`Decimal(str(...))`, modelled as the exact value). -/
structure AppliedRule where
  id : Int
  name : String
  rule_type : String
  amount : ℚ
  details : JDict

/-- `ORDER BY priority ASC, id ASC` key of `load_active_rules`. -/
def ruleLE (a b : Rule) : Bool :=
  a.priority < b.priority || (a.priority == b.priority && a.id ≤ b.id)

/-- Ordered insertion for the rule sort. -/
def insertRule (r : Rule) : List Rule → List Rule
  | [] => [r]
  | x :: xs => if ruleLE r x then r :: x :: xs else x :: insertRule r xs

/-- Insertion sort by `(priority, id)`. -/
def sortRules : List Rule → List Rule
  | [] => []
  | r :: rs => insertRule r (sortRules rs)

/-- `PricingEngine.load_active_rules`: the active rules ordered by
`(priority ascending, id ascending)`. -/
def load_active_rules (rules : List Rule) : List Rule :=
  sortRules (rules.filter (fun r => r.is_active))

/-- The attribute loop of `_matches_condition` (lines 159-163): each key of
the condition's `attributes` submapping is compared with
`attributes.get(k) != expected`, where `.get` yields `None` both for an
absent key and for a stored `null`. -/
def attrsMatch (attributes : JDict) : List (String × JVal) → Bool
  | [] => true
  | (k, expected) :: rest =>
      if pyEq ((dictGet attributes k).getD JVal.null) expected then
        attrsMatch attributes rest
      else false

/-- `PricingEngine._matches_condition`.  Each keyword argument is `none`
when the call site does not supply it; the checks run in source order with
early `return False`, so a later check (and any exception it would raise)
is not evaluated once an earlier one fails. -/
def matches_condition (rule : Rule) (product_id : Option Int)
    (attributes : Option JDict) (quantity : Option Int)
    (order_total : Option ℚ) : Option Bool :=
  let cond := rule.condition.getD []
  let pidOK :=
    match product_id, dictGet cond "product_id" with
    | some p, some v => pyEq v (JVal.num (p : ℚ))
    | _, _ => true
  if !pidOK then some false
  else
    match (match quantity, dictGet cond "min_qty" with
           | some q, some v => (intOf v).map (fun m => decide (m ≤ q))
           | _, _ => some true) with
    | none => none
    | some false => some false
    | some true =>
      match (match order_total, dictGet cond "min_order_total" with
             | some t, some v => (floatOf v).map (fun m => decide (m ≤ t))
             | _, _ => some true) with
      | none => none
      | some false => some false
      | some true =>
        match attributes with
        | some a =>
            match dictOf ((dictGet cond "attributes").getD (JVal.obj [])) with
            | none => none
            | some ac => some (attrsMatch a ac)
        | none => some true

/-- Lines 57-72 of the source: parse `amount` and `percentage`, build and
round the increment, and record the `AppliedRule`. -/
def configAdjAmount (product : Product) (rule : Rule) (params : JDict)
    (ak : JVal) : Option (Option AppliedRule) :=
  match decimalOf ((dictGet params "amount").getD (JVal.num 0)) with
  | none => none
  | some amount =>
    match decimalOf ((dictGet params "percentage").getD (JVal.num 0)) with
    | none => none
    | some percentage =>
      let increment := roundCur
        (if percentage ≠ 0 then amount + product.base_price * (percentage / 100)
         else amount)
      some (some ⟨rule.id, rule.name, rule.rule_type, increment,
        [("attribute", ak), ("percentage", JVal.num percentage),
         ("amount", JVal.num amount)]⟩)

/-- One iteration of the `compute_config_adjustments` loop for a single
rule: `none` models a raised exception, `some none` a rule that does not
fire, `some (some ar)` a firing rule with its `AppliedRule` record (whose
`amount` is the rounded increment). -/
def configAdjStep (product : Product) (attributes : JDict) (rule : Rule) :
    Option (Option AppliedRule) :=
  if rule.rule_type ≠ "config_adjustment" then some none
  else
    match matches_condition rule (some product.id) (some attributes) none none with
    | none => none
    | some false => some none
    | some true =>
      let params := rule.parameters.getD []
      -- `params.get("attribute")` / `params.get("equals")`: `None` both for
      -- an absent key and for a stored `null`.
      let attribute_key := match dictGet params "attribute" with
        | some JVal.null => none
        | o => o
      let attribute_value_expected := match dictGet params "equals" with
        | some JVal.null => none
        | o => o
      match attribute_key with
      | none => some none
      | some ak =>
        match attribute_value_expected with
        | some expected =>
            match pyDictGet attributes ak with
            | none => none
            | some got =>
                if pyEq (got.getD JVal.null) expected then
                  configAdjAmount product rule params ak
                else some none
        | none => configAdjAmount product rule params ak

/-- The `compute_config_adjustments` loop, as explicit recursion over the
(already sorted) active rules: accumulates the running total and the
applied list in evaluation order. -/
def configAdjList (product : Product) (attributes : JDict) :
    List Rule → Option (ℚ × List AppliedRule)
  | [] => some (0, [])
  | r :: rs => do
      let step ← configAdjStep product attributes r
      let (t, aps) ← configAdjList product attributes rs
      match step with
      | none => pure (t, aps)
      | some ar => pure (t + ar.amount, ar :: aps)

/-- `PricingEngine.compute_config_adjustments`: run the loop over the
active rules and re-round the accumulated total. -/
def compute_config_adjustments (rules : List Rule) (product : Product)
    (attributes : JDict) : Option (ℚ × List AppliedRule) := do
  let (t, aps) ← configAdjList product attributes (load_active_rules rules)
  return (roundCur t, aps)

/-- One tier of a `tiered_discount` rule, parsed as the source does:
`int(tier.get("min_qty", 0))` and `Decimal(str(tier.get("percent_off", 0)))`
after requiring `tier` to be a mapping. -/
def tierParsed (t : JVal) : Option (Int × ℚ) := do
  let td ← dictOf t
  let mq ← intOf ((dictGet td "min_qty").getD (JVal.num 0))
  let po ← decimalOf ((dictGet td "percent_off").getD (JVal.num 0))
  return (mq, po)

/-- The tier scan of lines 106-112: the running best percent is replaced
only when the tier qualifies (`quantity >= min_qty`) and its percent is
strictly greater. -/
def bestTierPercent (quantity : Int) (best : ℚ) : List JVal → Option ℚ
  | [] => some best
  | t :: ts => do
      let mp ← tierParsed t
      bestTierPercent quantity
        (if mp.1 ≤ quantity ∧ best < mp.2 then mp.2 else best) ts

/-- One iteration of the candidate-collection loop of `compute_discounts`
(lines 78-123) for a single rule: `none` models a raised exception,
`some none` no candidate, `some (some c)` a candidate discount. -/
def discountStep (product : Product) (quantity : Int) (subtotal : ℚ)
    (attributes : JDict) (rule : Rule) : Option (Option AppliedRule) :=
  if rule.rule_type ≠ "order_discount" ∧ rule.rule_type ≠ "tiered_discount" then
    some none
  else
    match matches_condition rule (some product.id) (some attributes)
        (some quantity) (some subtotal) with
    | none => none
    | some false => some none
    | some true =>
      let params := rule.parameters.getD []
      if rule.rule_type = "order_discount" then
        match decimalOf ((dictGet params "min_total").getD (JVal.num 0)) with
        | none => none
        | some min_total =>
          if subtotal < min_total then some none
          else
            match decimalOf ((dictGet params "percentage").getD (JVal.num 0)) with
            | none => none
            | some percentage =>
              match decimalOf ((dictGet params "amount").getD (JVal.num 0)) with
              | none => none
              | some amount =>
                let discount_value := roundCur
                  (if percentage ≠ 0 then amount + subtotal * (percentage / 100)
                   else amount)
                if 0 < discount_value then
                  some (some ⟨rule.id, rule.name, rule.rule_type, discount_value,
                    [("percentage", JVal.num percentage),
                     ("amount", JVal.num amount)]⟩)
                else some none
      else
        match listOf ((dictGet params "tiers").getD (JVal.arr [])) with
        | none => none
        | some tiers =>
          match bestTierPercent quantity 0 tiers with
          | none => none
          | some best =>
            if 0 < best then
              some (some ⟨rule.id, rule.name, rule.rule_type,
                roundCur (subtotal * (best / 100)),
                [("applied_percent", JVal.num best)]⟩)
            else some none

/-- The candidate list built by `compute_discounts`, in evaluation order. -/
def candidatesList (product : Product) (quantity : Int) (subtotal : ℚ)
    (attributes : JDict) : List Rule → Option (List AppliedRule)
  | [] => some []
  | r :: rs => do
      let step ← discountStep product quantity subtotal attributes r
      let rest ← candidatesList product quantity subtotal attributes rs
      match step with
      | none => pure rest
      | some c => pure (c :: rest)

/-- Python `max(candidates, key=...)` over `c :: cs`: scans left to right
and replaces the current best only on a strictly greater key, so the first
element attaining the maximum wins. -/
def maxByAmount (c : AppliedRule) (cs : List AppliedRule) : AppliedRule :=
  cs.foldl (fun b r => if b.amount < r.amount then r else b) c

/-- Lines 125-129: no candidates gives a zero discount and an empty list,
otherwise the single best candidate is returned with its (re-rounded)
amount. -/
def selectBest : List AppliedRule → ℚ × List AppliedRule
  | [] => (0, [])
  | c :: cs =>
      let b := maxByAmount c cs
      (roundCur b.amount, [b])

/-- `PricingEngine.compute_discounts`: collect candidates over the active
rules, then choose the single best one. -/
def compute_discounts (rules : List Rule) (product : Product) (quantity : Int)
    (subtotal : ℚ) (attributes : JDict) : Option (ℚ × List AppliedRule) := do
  let cands ← candidatesList product quantity subtotal attributes
      (load_active_rules rules)
  return selectBest cands

/-- Python truthiness of `rule.parameters`: a present, non-empty mapping. -/
def paramsTruthy : Option JDict → Bool
  | some kvs => !kvs.isEmpty
  | none => false

/-- The scan of `approval_status` (lines 132-138): default threshold 10000;
the first `approval_threshold` rule with truthy `parameters` whose
`threshold` entry is present and non-null overrides it and stops the scan
(`Decimal(str(thr))` may raise there). -/
def thresholdScan : List Rule → Option ℚ
  | [] => some 10000
  | r :: rs =>
      if r.rule_type = "approval_threshold" ∧ paramsTruthy r.parameters then
        match dictGet (r.parameters.getD []) "threshold" with
        | some JVal.null => thresholdScan rs
        | some v => decimalOf v
        | none => thresholdScan rs
      else thresholdScan rs

/-- `PricingEngine.approval_status`: `manager_required` when the final
total reaches the threshold, which is returned truncated to an integer. -/
def approval_status (rules : List Rule) (final_total : ℚ) :
    Option (String × Int) := do
  let threshold ← thresholdScan (load_active_rules rules)
  if threshold ≤ final_total then
    return ("manager_required", ratTrunc threshold)
  else
    return ("auto_approved", ratTrunc threshold)

/-- The monetary part of `schemas.PriceBreakdown`, before the float
serialization boundary. -/
structure PriceBreakdown where
  subtotal : ℚ
  adjustments_total : ℚ
  discount_total : ℚ
  final_total : ℚ
  applied_rules : List AppliedRule

/-- The `/quote` orchestration of `main.py` (lines 42-53): adjustments,
subtotal, best discount, final total and approval classification. -/
def quoteBreakdown (rules : List Rule) (product : Product) (quantity : Int)
    (attributes : JDict) : Option (PriceBreakdown × String × Int) := do
  let (adjustments, applied_config_rules) ←
    compute_config_adjustments rules product attributes
  let subtotal := product.base_price * (quantity : ℚ) + adjustments
  let (discount, applied_discount_rules) ←
    compute_discounts rules product quantity subtotal attributes
  let final_total := subtotal - discount
  let (approval, threshold) ← approval_status rules final_total
  return (⟨subtotal, adjustments, discount, final_total,
    applied_config_rules ++ applied_discount_rules⟩, approval, threshold)

/-! ### Arithmetic facts about currency rounding -/

theorem ratFloor_eq_floor (q : ℚ) : q.floor = ⌊q⌋ :=
  (Rat.floor_def' q).trans Rat.floor_def.symm

theorem floor_intCast_add_half (k : ℤ) : ⌊(k : ℚ) + 1 / 2⌋ = k := by
  have hhalf : ⌊(1 / 2 : ℚ)⌋ = 0 := by
    rw [Int.floor_eq_zero_iff]
    constructor <;> norm_num
  rw [add_comm, Int.floor_add_int, hhalf, zero_add]

theorem roundCur_cent_fix (k : ℤ) : roundCur ((k : ℚ) / 100) = (k : ℚ) / 100 := by
  unfold roundCur
  rw [ratFloor_eq_floor, ratFloor_eq_floor]
  have h1 : (k : ℚ) / 100 * 100 + 1 / 2 = (k : ℚ) + 1 / 2 := by ring
  have h2 : -((k : ℚ) / 100) * 100 + 1 / 2 = ((-k : ℤ) : ℚ) + 1 / 2 := by
    push_cast; ring
  split
  · rw [h1, floor_intCast_add_half]
  · rw [h2, floor_intCast_add_half]
    push_cast; ring

theorem roundCur_of_cent {q : ℚ} (h : cent q) : roundCur q = q := by
  obtain ⟨k, rfl⟩ := h
  exact roundCur_cent_fix k

theorem cent_roundCur (q : ℚ) : cent (roundCur q) := by
  unfold roundCur
  split
  · exact ⟨(q * 100 + 1 / 2).floor, rfl⟩
  · exact ⟨-(-q * 100 + 1 / 2).floor, by push_cast; ring⟩

theorem cent_zero : cent 0 := ⟨0, by norm_num⟩

theorem cent_add {a b : ℚ} (ha : cent a) (hb : cent b) : cent (a + b) := by
  obtain ⟨k, rfl⟩ := ha
  obtain ⟨m, rfl⟩ := hb
  exact ⟨k + m, by push_cast; ring⟩

theorem cent_sub {a b : ℚ} (ha : cent a) (hb : cent b) : cent (a - b) := by
  obtain ⟨k, rfl⟩ := ha
  obtain ⟨m, rfl⟩ := hb
  exact ⟨k - m, by push_cast; ring⟩

theorem cent_mul_int {a : ℚ} (ha : cent a) (n : ℤ) : cent (a * (n : ℚ)) := by
  obtain ⟨k, rfl⟩ := ha
  exact ⟨k * n, by push_cast; ring⟩

theorem roundCur_nonneg {q : ℚ} (h : 0 ≤ q) : 0 ≤ roundCur q := by
  unfold roundCur
  rw [if_pos h, ratFloor_eq_floor]
  have hf : (0 : ℤ) ≤ ⌊q * 100 + 1 / 2⌋ :=
    Int.floor_nonneg.mpr (by positivity)
  have : (0 : ℚ) ≤ (⌊q * 100 + 1 / 2⌋ : ℚ) := by exact_mod_cast hf
  linarith

/-! ### Inversion helpers for the engine's `Option` plumbing -/

theorem compute_config_adjustments_inv {rules : List Rule} {p : Product}
    {attrs : JDict} {t : ℚ} {aps : List AppliedRule}
    (h : compute_config_adjustments rules p attrs = some (t, aps)) :
    ∃ t0, configAdjList p attrs (load_active_rules rules) = some (t0, aps) ∧
      t = roundCur t0 := by
  unfold compute_config_adjustments at h
  simp only [Option.bind_eq_bind, Option.bind_eq_some, Option.pure_def] at h
  obtain ⟨⟨t0, aps0⟩, h1, h2⟩ := h
  simp only [Option.some.injEq, Prod.mk.injEq] at h2
  exact ⟨t0, by rw [h1, h2.2], h2.1.symm⟩

theorem compute_discounts_inv {rules : List Rule} {p : Product} {q : Int}
    {st : ℚ} {attrs : JDict} {d : ℚ} {aps : List AppliedRule}
    (h : compute_discounts rules p q st attrs = some (d, aps)) :
    ∃ cands, candidatesList p q st attrs (load_active_rules rules) = some cands ∧
      selectBest cands = (d, aps) := by
  unfold compute_discounts at h
  simp only [Option.bind_eq_bind, Option.bind_eq_some, Option.pure_def] at h
  obtain ⟨cands, h1, h2⟩ := h
  simp only [Option.some.injEq] at h2
  exact ⟨cands, h1, h2⟩

theorem compute_config_adjustments_cent {rules : List Rule} {p : Product}
    {attrs : JDict} {t : ℚ} {aps : List AppliedRule}
    (h : compute_config_adjustments rules p attrs = some (t, aps)) : cent t := by
  obtain ⟨t0, _, rfl⟩ := compute_config_adjustments_inv h
  exact cent_roundCur t0

theorem selectBest_cent (cands : List AppliedRule) : cent (selectBest cands).1 := by
  cases cands with
  | nil => exact cent_zero
  | cons c cs => exact cent_roundCur _

theorem compute_discounts_cent {rules : List Rule} {p : Product} {q : Int}
    {st : ℚ} {attrs : JDict} {d : ℚ} {aps : List AppliedRule}
    (h : compute_discounts rules p q st attrs = some (d, aps)) : cent d := by
  obtain ⟨cands, _, hsel⟩ := compute_discounts_inv h
  have := selectBest_cent cands
  rw [hsel] at this
  exact this

/-! ### C1: quote totals -/

/-- C1: for every product, quantity, attribute mapping and rule set over
which the quote computation completes, the breakdown satisfies
`subtotal = base_price * quantity + adjustments_total` and
`final_total = subtotal - discount_total`, exactly; and when the base
price is exact to the cent, so are all four totals. -/
theorem quote_totals_exact (rules : List Rule) (product : Product)
    (quantity : Int) (attributes : JDict) (bd : PriceBreakdown)
    (approval : String) (threshold : Int)
    (h : quoteBreakdown rules product quantity attributes =
      some (bd, approval, threshold)) :
    bd.subtotal = product.base_price * (quantity : ℚ) + bd.adjustments_total ∧
    bd.final_total = bd.subtotal - bd.discount_total ∧
    (cent product.base_price →
      cent bd.adjustments_total ∧ cent bd.subtotal ∧
      cent bd.discount_total ∧ cent bd.final_total) := by
  unfold quoteBreakdown at h
  simp only [Option.bind_eq_bind, Option.bind_eq_some, Option.pure_def,
    Option.some.injEq] at h
  obtain ⟨⟨adj, cfg⟩, h1, h⟩ := h
  obtain ⟨⟨disc, dapp⟩, h2, h⟩ := h
  obtain ⟨⟨appr, thr⟩, h3, h⟩ := h
  obtain ⟨hbd, -, -⟩ := Prod.mk.injEq .. ▸ h
  subst hbd
  refine ⟨rfl, rfl, fun hb => ?_⟩
  have hadj : cent adj := compute_config_adjustments_cent h1
  have hsub : cent (product.base_price * (quantity : ℚ) + adj) :=
    cent_add (by exact_mod_cast cent_mul_int hb quantity) hadj
  have hdisc : cent disc := compute_discounts_cent h2
  exact ⟨hadj, hsub, hdisc, cent_sub hsub hdisc⟩

/-- Concrete product for the witnesses: the seeded widget, base price 100. -/
def prodW : Product := ⟨1, 100⟩

/-- Breakdown produced by quoting 5 widgets with no rules. -/
def bdW : PriceBreakdown := ⟨500, 0, 0, 500, []⟩

unseal Rat.add Rat.mul Rat.inv Rat.sub Rat.ofScientific in
theorem quote_totals_exact_witness :
    bdW.subtotal = prodW.base_price * ((5 : Int) : ℚ) + bdW.adjustments_total ∧
    bdW.final_total = bdW.subtotal - bdW.discount_total ∧
    (cent prodW.base_price →
      cent bdW.adjustments_total ∧ cent bdW.subtotal ∧
      cent bdW.discount_total ∧ cent bdW.final_total) :=
  quote_totals_exact [] prodW 5 [] bdW "auto_approved" 10000 rfl

/-! ### C4 / C10: config adjustments accumulate rounded increments -/

theorem cent_listSum : ∀ {l : List ℚ}, (∀ x ∈ l, cent x) → cent l.sum
  | [], _ => by simpa using cent_zero
  | q :: l, h => by
      rw [List.sum_cons]
      exact cent_add (h q (by simp))
        (cent_listSum (fun x hx => h x (List.mem_cons_of_mem _ hx)))

theorem configAdjList_spec (p : Product) (attrs : JDict) :
    ∀ (rs : List Rule) (t : ℚ) (aps : List AppliedRule),
      configAdjList p attrs rs = some (t, aps) →
      t = (aps.map (fun ar => ar.amount)).sum ∧
      ∀ ar ∈ aps, ∃ r ∈ rs, configAdjStep p attrs r = some (some ar) := by
  intro rs
  induction rs with
  | nil =>
      intro t aps h
      simp only [configAdjList, Option.some.injEq, Prod.mk.injEq] at h
      obtain ⟨rfl, rfl⟩ := h
      simp
  | cons r rs ih =>
      intro t aps h
      simp only [configAdjList, Option.bind_eq_bind, Option.bind_eq_some,
        Option.pure_def] at h
      obtain ⟨step, hstep, ⟨t0, aps0⟩, hrec, h⟩ := h
      obtain ⟨hsum0, hmem0⟩ := ih t0 aps0 hrec
      cases step with
      | none =>
          simp only [Option.some.injEq, Prod.mk.injEq] at h
          obtain ⟨rfl, rfl⟩ := h
          exact ⟨hsum0, fun ar har =>
            (hmem0 ar har).elim fun r' hr' =>
              ⟨r', List.mem_cons_of_mem _ hr'.1, hr'.2⟩⟩
      | some ar =>
          simp only [Option.some.injEq, Prod.mk.injEq] at h
          obtain ⟨rfl, rfl⟩ := h
          refine ⟨by rw [List.map_cons, List.sum_cons, hsum0]; ring, ?_⟩
          intro ar' har'
          rcases List.mem_cons.mp har' with rfl | har'
          · exact ⟨r, List.mem_cons_self r rs, hstep⟩
          · obtain ⟨r', hr', hs'⟩ := hmem0 ar' har'
            exact ⟨r', List.mem_cons_of_mem _ hr', hs'⟩

theorem configAdjAmount_inv {p : Product} {r : Rule} {params : JDict}
    {ak : JVal} {ar : AppliedRule}
    (h : configAdjAmount p r params ak = some (some ar)) :
    ∃ amt pct,
      decimalOf ((dictGet params "amount").getD (JVal.num 0)) = some amt ∧
      decimalOf ((dictGet params "percentage").getD (JVal.num 0)) = some pct ∧
      ar = ⟨r.id, r.name, r.rule_type,
        roundCur (if pct ≠ 0 then amt + p.base_price * (pct / 100) else amt),
        [("attribute", ak), ("percentage", JVal.num pct),
         ("amount", JVal.num amt)]⟩ := by
  unfold configAdjAmount at h
  split at h
  · simp at h
  · rename_i amt h1
    split at h
    · simp at h
    · rename_i pct h2
      simp only [Option.some.injEq] at h
      exact ⟨amt, pct, h1, h2, h.symm⟩

theorem configAdjStep_fired {p : Product} {attrs : JDict} {r : Rule}
    {ar : AppliedRule} (h : configAdjStep p attrs r = some (some ar)) :
    r.rule_type = "config_adjustment" ∧
    ∃ ak, configAdjAmount p r (r.parameters.getD []) ak = some (some ar) := by
  unfold configAdjStep at h
  split at h
  · simp at h
  · rename_i hty
    split at h
    · simp at h
    · simp at h
    · simp only [] at h
      split at h
      · simp at h
      · rename_i ak hak
        split at h
        · rename_i expected hexp
          split at h
          · simp at h
          · rename_i got hgot
            split at h
            · exact ⟨not_not.mp hty, ak, h⟩
            · simp at h
        · exact ⟨not_not.mp hty, ak, h⟩

/-- C4: config adjustments stack additively: the total returned by
`compute_config_adjustments` is the sum of the individually rounded
increments of all firing rules, and each firing rule's increment is
`parameters.amount` plus `base_price * percentage / 100` when the
percentage is nonzero, rounded to the cent before accumulating. -/
theorem config_adjustments_stack_additively (rules : List Rule) (p : Product)
    (attrs : JDict) (T : ℚ) (aps : List AppliedRule)
    (h : compute_config_adjustments rules p attrs = some (T, aps)) :
    T = (aps.map (fun ar => ar.amount)).sum ∧
    ∀ ar ∈ aps, ∃ r ∈ load_active_rules rules,
      r.rule_type = "config_adjustment" ∧
      ∃ amt pct,
        decimalOf ((dictGet (r.parameters.getD []) "amount").getD (JVal.num 0)) =
          some amt ∧
        decimalOf ((dictGet (r.parameters.getD []) "percentage").getD (JVal.num 0)) =
          some pct ∧
        ar.amount =
          roundCur (if pct ≠ 0 then amt + p.base_price * (pct / 100) else amt) := by
  obtain ⟨t0, hlist, rfl⟩ := compute_config_adjustments_inv h
  obtain ⟨hsum, hmem⟩ := configAdjList_spec p attrs _ _ _ hlist
  have hamt : ∀ ar ∈ aps, cent ar.amount := by
    intro ar har
    obtain ⟨r, _, hstep⟩ := hmem ar har
    obtain ⟨_, ak, hA⟩ := configAdjStep_fired hstep
    obtain ⟨amt, pct, _, _, rfl⟩ := configAdjAmount_inv hA
    exact cent_roundCur _
  have hc : cent t0 := by
    rw [hsum]
    exact cent_listSum (by intro x hx; obtain ⟨ar, har, rfl⟩ := List.mem_map.mp hx
                           exact hamt ar har)
  rw [roundCur_of_cent hc]
  refine ⟨hsum, fun ar har => ?_⟩
  obtain ⟨r, hr, hstep⟩ := hmem ar har
  obtain ⟨hty, ak, hA⟩ := configAdjStep_fired hstep
  obtain ⟨amt, pct, h1, h2, rfl⟩ := configAdjAmount_inv hA
  exact ⟨r, hr, hty, amt, pct, h1, h2, rfl⟩

/-- C10: the total returned by `compute_config_adjustments` equals the sum
of the `amount` fields of the returned applied list; the final re-rounding
is an identity on that sum. -/
theorem config_total_eq_applied_sum (rules : List Rule) (p : Product)
    (attrs : JDict) (T : ℚ) (aps : List AppliedRule)
    (h : compute_config_adjustments rules p attrs = some (T, aps)) :
    T = (aps.map (fun ar => ar.amount)).sum ∧
    roundCur ((aps.map (fun ar => ar.amount)).sum) =
      (aps.map (fun ar => ar.amount)).sum := by
  obtain ⟨t0, hlist, rfl⟩ := compute_config_adjustments_inv h
  obtain ⟨hsum, hmem⟩ := configAdjList_spec p attrs _ _ _ hlist
  have hamt : ∀ ar ∈ aps, cent ar.amount := by
    intro ar har
    obtain ⟨r, _, hstep⟩ := hmem ar har
    obtain ⟨_, ak, hA⟩ := configAdjStep_fired hstep
    obtain ⟨amt, pct, _, _, rfl⟩ := configAdjAmount_inv hA
    exact cent_roundCur _
  have hc : cent t0 := by
    rw [hsum]
    exact cent_listSum (by intro x hx; obtain ⟨ar, har, rfl⟩ := List.mem_map.mp hx
                           exact hamt ar har)
  rw [roundCur_of_cent hc, hsum]
  exact ⟨rfl, roundCur_of_cent (hsum ▸ hc)⟩

/-- The seeded red-markup rule of the repository's test fixture: +10 when
`color == "red"` on product 1. -/
def ruleRed : Rule := ⟨1, "Red color markup", "config_adjustment",
  some [("product_id", JVal.num 1)],
  some [("attribute", JVal.str "color"), ("equals", JVal.str "red"),
        ("amount", JVal.num 10)], true, 10⟩

/-- Request attributes selecting the red configuration. -/
def attrsRed : JDict := [("color", JVal.str "red")]

/-- The applied-rule record the red-markup rule produces. -/
def arRed : AppliedRule := ⟨1, "Red color markup", "config_adjustment", 10,
  [("attribute", JVal.str "color"), ("percentage", JVal.num 0),
   ("amount", JVal.num 10)]⟩

unseal Rat.add Rat.mul Rat.inv Rat.sub Rat.ofScientific in
theorem config_adjustments_stack_additively_witness :
    (10 : ℚ) = ([arRed].map (fun ar => ar.amount)).sum ∧
    ∀ ar ∈ [arRed], ∃ r ∈ load_active_rules [ruleRed],
      r.rule_type = "config_adjustment" ∧
      ∃ amt pct,
        decimalOf ((dictGet (r.parameters.getD []) "amount").getD (JVal.num 0)) =
          some amt ∧
        decimalOf ((dictGet (r.parameters.getD []) "percentage").getD (JVal.num 0)) =
          some pct ∧
        ar.amount =
          roundCur (if pct ≠ 0 then amt + prodW.base_price * (pct / 100) else amt) :=
  config_adjustments_stack_additively [ruleRed] prodW attrsRed 10 [arRed] rfl

unseal Rat.add Rat.mul Rat.inv Rat.sub Rat.ofScientific in
theorem config_total_eq_applied_sum_witness :
    (10 : ℚ) = ([arRed].map (fun ar => ar.amount)).sum ∧
    roundCur (([arRed].map (fun ar => ar.amount)).sum) =
      ([arRed].map (fun ar => ar.amount)).sum :=
  config_total_eq_applied_sum [ruleRed] prodW attrsRed 10 [arRed] rfl

/-! ### C5: approval threshold resolution -/

/-- The stopping condition of the `approval_status` scan: an
`approval_threshold` rule with truthy parameters whose `threshold` entry is
present and non-null.  The rule's `condition` is not consulted. -/
def hasThresholdEntry (r : Rule) : Bool :=
  r.rule_type == "approval_threshold" && paramsTruthy r.parameters &&
    (match dictGet (r.parameters.getD []) "threshold" with
     | some JVal.null => false
     | some _ => true
     | none => false)

/-- The `threshold` entry of a rule's parameters. -/
def thresholdValue (r : Rule) : JVal :=
  (dictGet (r.parameters.getD []) "threshold").getD JVal.null

theorem thresholdScan_characterization : ∀ rs : List Rule,
    thresholdScan rs =
      match rs.find? hasThresholdEntry with
      | none => some 10000
      | some r => decimalOf (thresholdValue r) := by
  intro rs
  induction rs with
  | nil => simp [thresholdScan]
  | cons r rs ih =>
      rw [thresholdScan, List.find?_cons]
      by_cases h1 : r.rule_type = "approval_threshold" ∧ paramsTruthy r.parameters = true
      · rw [if_pos h1]
        cases hv : dictGet (r.parameters.getD []) "threshold" with
        | none =>
            have hp : hasThresholdEntry r = false := by
              simp [hasThresholdEntry, hv]
            rw [hp, ih]
        | some v =>
            cases v with
            | null =>
                have hp : hasThresholdEntry r = false := by
                  simp [hasThresholdEntry, hv]
                rw [hp, ih]
            | bool b =>
                have hp : hasThresholdEntry r = true := by
                  simp [hasThresholdEntry, hv, h1.1, h1.2]
                rw [hp]
                simp [thresholdValue, hv]
            | num q =>
                have hp : hasThresholdEntry r = true := by
                  simp [hasThresholdEntry, hv, h1.1, h1.2]
                rw [hp]
                simp [thresholdValue, hv]
            | str s =>
                have hp : hasThresholdEntry r = true := by
                  simp [hasThresholdEntry, hv, h1.1, h1.2]
                rw [hp]
                simp [thresholdValue, hv]
            | arr xs =>
                have hp : hasThresholdEntry r = true := by
                  simp [hasThresholdEntry, hv, h1.1, h1.2]
                rw [hp]
                simp [thresholdValue, hv]
            | obj kvs =>
                have hp : hasThresholdEntry r = true := by
                  simp [hasThresholdEntry, hv, h1.1, h1.2]
                rw [hp]
                simp [thresholdValue, hv]
      · rw [if_neg h1]
        have hp : hasThresholdEntry r = false := by
          rcases not_and_or.mp h1 with hne | hne
          · simp [hasThresholdEntry, hne]
          · simp [hasThresholdEntry, Bool.eq_false_iff.mpr hne]
        rw [hp, ih]

/-- C5: the approval threshold defaults to 10000 unless the first
`approval_threshold` rule in `(priority, id)` order carrying a usable
`parameters.threshold` overrides it (independent of the rule's condition),
and the returned status is `manager_required` exactly when
`final_total >= threshold`, the boundary included. -/
theorem approval_threshold_resolution (rules : List Rule) (final_total : ℚ)
    (st : String) (thr : Int)
    (h : approval_status rules final_total = some (st, thr)) :
    ∃ T : ℚ, thresholdScan (load_active_rules rules) = some T ∧
      thr = ratTrunc T ∧
      (st = "manager_required" ↔ T ≤ final_total) ∧
      (st = "manager_required" ∨ st = "auto_approved") ∧
      ((load_active_rules rules).find? hasThresholdEntry = none → T = 10000) ∧
      (∀ r, (load_active_rules rules).find? hasThresholdEntry = some r →
        decimalOf (thresholdValue r) = some T) := by
  unfold approval_status at h
  simp only [Option.bind_eq_bind, Option.bind_eq_some, Option.pure_def] at h
  obtain ⟨T, hT, h⟩ := h
  refine ⟨T, hT, ?_⟩
  have hchar := thresholdScan_characterization (load_active_rules rules)
  rw [hT] at hchar
  have hdefault : (load_active_rules rules).find? hasThresholdEntry = none →
      T = 10000 := by
    intro hf
    rw [hf] at hchar
    simpa using hchar
  have hover : ∀ r, (load_active_rules rules).find? hasThresholdEntry = some r →
      decimalOf (thresholdValue r) = some T := by
    intro r hf
    rw [hf] at hchar
    exact hchar.symm
  split at h
  · rename_i hle
    simp only [Option.some.injEq, Prod.mk.injEq] at h
    obtain ⟨rfl, rfl⟩ := h
    exact ⟨rfl, ⟨fun _ => hle, fun _ => rfl⟩, Or.inl rfl, hdefault, hover⟩
  · rename_i hle
    simp only [Option.some.injEq, Prod.mk.injEq] at h
    obtain ⟨rfl, rfl⟩ := h
    refine ⟨rfl, ⟨fun hst => absurd hst (by decide), fun hT' => absurd hT' hle⟩,
      Or.inr rfl, hdefault, hover⟩

/-- The seeded approval-threshold rule of the test fixture. -/
def ruleThr : Rule := ⟨4, "Approval threshold", "approval_threshold",
  some [("product_id", JVal.num 1)],
  some [("threshold", JVal.num 10000)], true, 5⟩

unseal Rat.add Rat.mul Rat.inv Rat.sub Rat.ofScientific in
theorem approval_threshold_resolution_witness :
    ∃ T : ℚ, thresholdScan (load_active_rules [ruleThr]) = some T ∧
      (10000 : Int) = ratTrunc T ∧
      ("manager_required" = "manager_required" ↔ T ≤ (10000 : ℚ)) ∧
      ("manager_required" = "manager_required" ∨
        "manager_required" = "auto_approved") ∧
      ((load_active_rules [ruleThr]).find? hasThresholdEntry = none →
        T = 10000) ∧
      (∀ r, (load_active_rules [ruleThr]).find? hasThresholdEntry = some r →
        decimalOf (thresholdValue r) = some T) :=
  approval_threshold_resolution [ruleThr] 10000 "manager_required" 10000 rfl

/-! ### C2: discount selection is a first-encountered strict max -/

theorem maxByAmount_cons (c r : AppliedRule) (rs : List AppliedRule) :
    maxByAmount c (r :: rs) =
      maxByAmount (if c.amount < r.amount then r else c) rs := rfl

theorem maxByAmount_first_max : ∀ (cs : List AppliedRule) (c : AppliedRule),
    ∃ l1 l2, c :: cs = l1 ++ maxByAmount c cs :: l2 ∧
      (∀ x ∈ c :: cs, x.amount ≤ (maxByAmount c cs).amount) ∧
      (∀ x ∈ l1, x.amount < (maxByAmount c cs).amount) := by
  intro cs
  induction cs with
  | nil =>
      intro c
      exact ⟨[], [], rfl, by simp [maxByAmount], by simp⟩
  | cons r rs ih =>
      intro c
      by_cases hc : c.amount < r.amount
      · obtain ⟨l1, l2, heq, hle, hlt⟩ := ih r
        have hm : maxByAmount c (r :: rs) = maxByAmount r rs := by
          rw [maxByAmount_cons, if_pos hc]
        refine ⟨c :: l1, l2, ?_, ?_, ?_⟩
        · rw [hm, List.cons_append, ← heq]
        · intro x hx
          rw [hm]
          rcases List.mem_cons.mp hx with rfl | hx
          · exact le_of_lt (lt_of_lt_of_le hc (hle r (by simp)))
          · exact hle x hx
        · intro x hx
          rw [hm]
          rcases List.mem_cons.mp hx with rfl | hx
          · exact lt_of_lt_of_le hc (hle r (by simp))
          · exact hlt x hx
      · obtain ⟨l1, l2, heq, hle, hlt⟩ := ih c
        have hm : maxByAmount c (r :: rs) = maxByAmount c rs := by
          rw [maxByAmount_cons, if_neg hc]
        cases l1 with
        | nil =>
            simp only [List.nil_append] at heq
            injection heq with hb hl2
            refine ⟨[], r :: rs, ?_, ?_, by simp⟩
            · rw [hm, ← hb]
              simp
            · intro x hx
              rw [hm, ← hb]
              rcases List.mem_cons.mp hx with rfl | hx
              · exact le_refl _
              · rcases List.mem_cons.mp hx with rfl | hx
                · exact le_of_not_lt hc
                · have := hle x (List.mem_cons_of_mem _ hx)
                  rw [← hb] at this
                  exact this
        | cons a l1t =>
            simp only [List.cons_append] at heq
            injection heq with ha hrs
            have hcb : c.amount < (maxByAmount c rs).amount := by
              have := hlt a (by simp)
              rw [← ha] at this
              exact this
            refine ⟨c :: r :: l1t, l2, ?_, ?_, ?_⟩
            · rw [hm]
              simp only [List.cons_append]
              rw [← hrs]
            · intro x hx
              rw [hm]
              rcases List.mem_cons.mp hx with rfl | hx
              · exact le_of_lt hcb
              · rcases List.mem_cons.mp hx with rfl | hx
                · exact le_of_lt (lt_of_le_of_lt (le_of_not_lt hc) hcb)
                · exact hle x (List.mem_cons_of_mem _ hx)
            · intro x hx
              rw [hm]
              rcases List.mem_cons.mp hx with rfl | hx
              · exact hcb
              · rcases List.mem_cons.mp hx with rfl | hx
                · exact lt_of_le_of_lt (le_of_not_lt hc) hcb
                · exact hlt x (by simp [← ha, hx])

/-- C2: among the candidates collected by `compute_discounts`, the one with
the strictly largest amount is selected; on an exact tie the first
candidate in evaluation order wins; at most one `AppliedRule` is returned;
and with no candidates the result is a zero discount and an empty list. -/
theorem discount_selection_first_max (rules : List Rule) (p : Product)
    (q : Int) (st : ℚ) (attrs : JDict) (d : ℚ) (aps : List AppliedRule)
    (cands : List AppliedRule)
    (h : compute_discounts rules p q st attrs = some (d, aps))
    (hc : candidatesList p q st attrs (load_active_rules rules) = some cands) :
    aps.length ≤ 1 ∧
    (cands = [] → d = 0 ∧ aps = []) ∧
    (cands ≠ [] →
      ∃ l1 l2 b, cands = l1 ++ b :: l2 ∧ aps = [b] ∧ d = roundCur b.amount ∧
        (∀ x ∈ cands, x.amount ≤ b.amount) ∧
        (∀ x ∈ l1, x.amount < b.amount)) := by
  obtain ⟨cands', hc', hsel⟩ := compute_discounts_inv h
  rw [hc] at hc'
  obtain rfl : cands = cands' := Option.some.inj hc'
  cases cands with
  | nil =>
      simp only [selectBest] at hsel
      obtain ⟨rfl, rfl⟩ := Prod.mk.injEq .. ▸ hsel.symm
      exact ⟨by simp, fun _ => ⟨rfl, rfl⟩, fun hne => absurd rfl hne⟩
  | cons c0 cs =>
      simp only [selectBest] at hsel
      obtain ⟨hd, haps⟩ := Prod.mk.injEq .. ▸ hsel.symm
      obtain ⟨l1, l2, heq, hle, hlt⟩ := maxByAmount_first_max cs c0
      refine ⟨?_, ?_, ?_⟩
      · rw [haps]
        simp
      · intro hcon
        cases hcon
      · intro _
        exact ⟨l1, l2, maxByAmount c0 cs, heq, haps, hd, hle, hlt⟩

/-- The seeded high-value order discount of the test fixture: 10 percent
off orders of at least 5000. -/
def ruleHigh : Rule := ⟨2, "High value discount", "order_discount",
  some [("product_id", JVal.num 1), ("min_order_total", JVal.num 5000)],
  some [("percentage", JVal.num 10)], true, 20⟩

/-- The seeded volume tier rule of the test fixture: 5 percent from 10
units, 12 percent from 50 units. -/
def ruleTier : Rule := ⟨3, "Volume tier", "tiered_discount",
  some [("product_id", JVal.num 1)],
  some [("tiers", JVal.arr
    [JVal.obj [("min_qty", JVal.num 10), ("percent_off", JVal.num 5)],
     JVal.obj [("min_qty", JVal.num 50), ("percent_off", JVal.num 12)]])],
  true, 30⟩

/-- Candidate produced by `ruleHigh` at subtotal 6010: 601.00 off. -/
def cHighW : AppliedRule := ⟨2, "High value discount", "order_discount", 601,
  [("percentage", JVal.num 10), ("amount", JVal.num 0)]⟩

/-- Candidate produced by `ruleTier` at quantity 60: 721.20 off. -/
def cTierW : AppliedRule := ⟨3, "Volume tier", "tiered_discount", 3606 / 5,
  [("applied_percent", JVal.num 12)]⟩

unseal Rat.add Rat.mul Rat.inv Rat.sub Rat.ofScientific in
theorem discount_selection_first_max_witness :
    ([cTierW] : List AppliedRule).length ≤ 1 ∧
    ([cHighW, cTierW] = ([] : List AppliedRule) →
      (3606 / 5 : ℚ) = 0 ∧ [cTierW] = ([] : List AppliedRule)) ∧
    ([cHighW, cTierW] ≠ ([] : List AppliedRule) →
      ∃ l1 l2 b, [cHighW, cTierW] = l1 ++ b :: l2 ∧ [cTierW] = [b] ∧
        (3606 / 5 : ℚ) = roundCur b.amount ∧
        (∀ x ∈ [cHighW, cTierW], x.amount ≤ b.amount) ∧
        (∀ x ∈ l1, x.amount < b.amount)) :=
  discount_selection_first_max [ruleHigh, ruleTier] prodW 60 6010 attrsRed
    (3606 / 5) [cTierW] [cHighW, cTierW] rfl rfl

/-! ### C3: tiered discount picks the highest qualifying tier -/

/-- One update of the tier scan: replace the running best only when the
tier qualifies and strictly improves it. -/
def tierFoldStep (q : Int) (acc : ℚ) (mp : Int × ℚ) : ℚ :=
  if mp.1 ≤ q ∧ acc < mp.2 then mp.2 else acc

theorem bestTierPercent_fold (q : Int) :
    ∀ (ts : List JVal) (tps : List (Int × ℚ)) (b : ℚ),
      ts.mapM tierParsed = some tps →
      bestTierPercent q b ts = some (tps.foldl (tierFoldStep q) b) := by
  intro ts
  induction ts with
  | nil =>
      intro tps b h
      simp only [List.mapM_nil, Option.pure_def, Option.some.injEq] at h
      subst h
      simp [bestTierPercent]
  | cons t ts ih =>
      intro tps b h
      simp only [List.mapM_cons, Option.bind_eq_bind, Option.bind_eq_some,
        Option.pure_def, Option.some.injEq] at h
      obtain ⟨mp, hmp, tps', htps', rfl⟩ := h
      show (tierParsed t).bind _ = _
      rw [hmp]
      simp only [Option.some_bind]
      rw [ih tps' _ htps']
      rfl

theorem tierFold_le (q : Int) :
    ∀ (tps : List (Int × ℚ)) (b : ℚ), b ≤ tps.foldl (tierFoldStep q) b := by
  intro tps
  induction tps with
  | nil => intro b; simp
  | cons hd tl ih =>
      intro b
      refine le_trans ?_ (ih (tierFoldStep q b hd))
      unfold tierFoldStep
      split
      · rename_i hcond
        exact le_of_lt hcond.2
      · exact le_refl b

theorem tierFold_upper (q : Int) :
    ∀ (tps : List (Int × ℚ)) (b : ℚ) (mp : Int × ℚ), mp ∈ tps → mp.1 ≤ q →
      mp.2 ≤ tps.foldl (tierFoldStep q) b := by
  intro tps
  induction tps with
  | nil => intro b mp hmp; cases hmp
  | cons hd tl ih =>
      intro b mp hmp hq
      rcases List.mem_cons.mp hmp with rfl | hmp
      · show mp.2 ≤ tl.foldl (tierFoldStep q) (tierFoldStep q b mp)
        refine le_trans ?_ (tierFold_le q tl (tierFoldStep q b mp))
        unfold tierFoldStep
        split
        · exact le_refl _
        · rename_i hcond
          rcases not_and_or.mp hcond with hc | hc
          · exact absurd hq hc
          · exact le_of_not_lt hc
      · exact ih (tierFoldStep q b hd) mp hmp hq

theorem tierFold_mem (q : Int) :
    ∀ (tps : List (Int × ℚ)) (b : ℚ),
      tps.foldl (tierFoldStep q) b = b ∨
      ∃ mp ∈ tps, mp.1 ≤ q ∧ tps.foldl (tierFoldStep q) b = mp.2 := by
  intro tps
  induction tps with
  | nil => intro b; exact Or.inl rfl
  | cons hd tl ih =>
      intro b
      have hfold : List.foldl (tierFoldStep q) b (hd :: tl) =
          tl.foldl (tierFoldStep q) (tierFoldStep q b hd) := rfl
      by_cases hcond : hd.1 ≤ q ∧ b < hd.2
      · have hstep : tierFoldStep q b hd = hd.2 := if_pos hcond
        rcases ih (tierFoldStep q b hd) with h0 | ⟨mp, hmp, hq, hBe⟩
        · exact Or.inr ⟨hd, List.mem_cons_self hd tl, hcond.1,
            by rw [hfold, h0, hstep]⟩
        · exact Or.inr ⟨mp, List.mem_cons_of_mem _ hmp, hq,
            by rw [hfold]; exact hBe⟩
      · have hstep : tierFoldStep q b hd = b := if_neg hcond
        rcases ih b with h0 | ⟨mp, hmp, hq, hBe⟩
        · exact Or.inl (by rw [hfold, hstep]; exact h0)
        · exact Or.inr ⟨mp, List.mem_cons_of_mem _ hmp, hq,
            by rw [hfold, hstep]; exact hBe⟩

/-- C3: for a `tiered_discount` rule whose condition matches and whose
tiers parse, the selected percent is the single highest `percent_off`
among tiers with `min_qty <= quantity` (a quantity exactly at a tier
boundary qualifies; an equal later percent never displaces the running
best, which the strict-max characterization subsumes), and when that best
percent is positive the candidate's amount is
`round(subtotal * best / 100)` half-up to 2 digits. -/
theorem tiered_best_tier (r : Rule) (p : Product) (q : Int) (st : ℚ)
    (attrs : JDict) (ts : List JVal) (tps : List (Int × ℚ))
    (hty : r.rule_type = "tiered_discount")
    (hm : matches_condition r (some p.id) (some attrs) (some q) (some st) =
      some true)
    (hts : listOf ((dictGet (r.parameters.getD []) "tiers").getD (JVal.arr [])) =
      some ts)
    (htp : ts.mapM tierParsed = some tps) :
    ∃ B, bestTierPercent q 0 ts = some B ∧
      (∀ mp ∈ tps, mp.1 ≤ q → mp.2 ≤ B) ∧
      (B = 0 ∨ ∃ mp ∈ tps, mp.1 ≤ q ∧ B = mp.2) ∧
      (0 < B → discountStep p q st attrs r =
        some (some ⟨r.id, r.name, r.rule_type, roundCur (st * (B / 100)),
          [("applied_percent", JVal.num B)]⟩)) ∧
      (¬ 0 < B → discountStep p q st attrs r = some none) := by
  have hbest := bestTierPercent_fold q ts tps 0 htp
  refine ⟨tps.foldl (tierFoldStep q) 0, hbest,
    fun mp hmp hq => tierFold_upper q tps 0 mp hmp hq, ?_, ?_, ?_⟩
  · rcases tierFold_mem q tps 0 with h0 | ⟨mp, hmp, hq, hBe⟩
    · exact Or.inl h0
    · exact Or.inr ⟨mp, hmp, hq, hBe⟩
  · intro hpos
    unfold discountStep
    rw [if_neg (by rw [hty]; simp)]
    rw [hm]
    simp only []
    rw [if_neg (by rw [hty]; simp)]
    simp only [hts, hbest]
    rw [if_pos hpos]
  · intro hpos
    unfold discountStep
    rw [if_neg (by rw [hty]; simp)]
    rw [hm]
    simp only []
    rw [if_neg (by rw [hty]; simp)]
    simp only [hts, hbest]
    rw [if_neg hpos]

/-- The tier list of `ruleTier`, as JSON values. -/
def tsW : List JVal :=
  [JVal.obj [("min_qty", JVal.num 10), ("percent_off", JVal.num 5)],
   JVal.obj [("min_qty", JVal.num 50), ("percent_off", JVal.num 12)]]

/-- The tier list of `ruleTier`, parsed. -/
def tpsW : List (Int × ℚ) := [(10, 5), (50, 12)]

unseal Rat.add Rat.mul Rat.inv Rat.sub Rat.ofScientific in
theorem tiered_best_tier_witness :
    ∃ B, bestTierPercent 60 0 tsW = some B ∧
      (∀ mp ∈ tpsW, mp.1 ≤ 60 → mp.2 ≤ B) ∧
      (B = 0 ∨ ∃ mp ∈ tpsW, mp.1 ≤ 60 ∧ B = mp.2) ∧
      (0 < B → discountStep prodW 60 6010 attrsRed ruleTier =
        some (some ⟨ruleTier.id, ruleTier.name, ruleTier.rule_type,
          roundCur (6010 * (B / 100)), [("applied_percent", JVal.num B)]⟩)) ∧
      (¬ 0 < B → discountStep prodW 60 6010 attrsRed ruleTier = some none) :=
  tiered_best_tier ruleTier prodW 60 6010 attrsRed tsW tpsW rfl rfl rfl rfl

/-! ### C9: sign of the selected discount -/

theorem candidatesList_mem (p : Product) (q : Int) (st : ℚ) (attrs : JDict) :
    ∀ (rs : List Rule) (cands : List AppliedRule),
      candidatesList p q st attrs rs = some cands →
      ∀ c ∈ cands, ∃ r ∈ rs, discountStep p q st attrs r = some (some c) := by
  intro rs
  induction rs with
  | nil =>
      intro cands h
      simp only [candidatesList, Option.some.injEq] at h
      subst h
      intro c hc
      cases hc
  | cons r rs ih =>
      intro cands h
      simp only [candidatesList, Option.bind_eq_bind, Option.bind_eq_some,
        Option.pure_def] at h
      obtain ⟨step, hstep, rest, hrest, h⟩ := h
      cases step with
      | none =>
          simp only [Option.some.injEq] at h
          subst h
          intro c hc
          obtain ⟨r', hr', hs'⟩ := ih rest hrest c hc
          exact ⟨r', List.mem_cons_of_mem _ hr', hs'⟩
      | some c0 =>
          simp only [Option.some.injEq] at h
          subst h
          intro c hc
          rcases List.mem_cons.mp hc with rfl | hc
          · exact ⟨r, List.mem_cons_self r rs, hstep⟩
          · obtain ⟨r', hr', hs'⟩ := ih rest hrest c hc
            exact ⟨r', List.mem_cons_of_mem _ hr', hs'⟩

theorem discountStep_nonneg {p : Product} {q : Int} {st : ℚ} {attrs : JDict}
    {r : Rule} {c : AppliedRule} (hst : 0 ≤ st)
    (h : discountStep p q st attrs r = some (some c)) : 0 ≤ c.amount := by
  unfold discountStep at h
  split at h
  · simp at h
  · split at h
    · simp at h
    · simp at h
    · simp only [] at h
      split at h
      · -- order_discount branch
        split at h
        · simp at h
        · split at h
          · simp at h
          · split at h
            · simp at h
            · split at h
              · simp at h
              · -- `if percentage ≠ 0` and then the positivity gate
                split at h <;> split at h
                · rename_i hdv
                  simp only [Option.some.injEq] at h
                  obtain rfl := h.symm
                  exact le_of_lt hdv
                · simp at h
                · rename_i hdv
                  simp only [Option.some.injEq] at h
                  obtain rfl := h.symm
                  exact le_of_lt hdv
                · simp at h
      · -- tiered_discount branch
        split at h
        · simp at h
        · split at h
          · simp at h
          · split at h
            · rename_i best hbest hpos
              simp only [Option.some.injEq] at h
              obtain rfl := h.symm
              exact roundCur_nonneg
                (mul_nonneg hst (le_of_lt (div_pos hpos (by norm_num))))
            · simp at h

/-- C9 counterexample input: a tiered rule whose 10 percent tier fires at
any quantity. -/
def ruleTierNeg : Rule := ⟨7, "Any tier", "tiered_discount", none,
  some [("tiers", JVal.arr
    [JVal.obj [("min_qty", JVal.num 1), ("percent_off", JVal.num 10)]])],
  true, 10⟩

/-- The candidate `ruleTierNeg` produces at subtotal -100: amount -10. -/
def arNeg : AppliedRule := ⟨7, "Any tier", "tiered_discount", -10,
  [("applied_percent", JVal.num 10)]⟩

unseal Rat.add Rat.mul Rat.inv Rat.sub Rat.ofScientific in
/-- C9 counterexample: at a negative subtotal the tiered candidate is
admitted with a negative amount (only the percent is checked for
positivity, not the rounded amount), so `compute_discounts` returns a
strictly negative discount together with one `AppliedRule` — the claimed
nonnegativity and the only-strictly-positive-candidates dichotomy fail. -/
theorem discount_nonneg_counterexample :
    compute_discounts [ruleTierNeg] prodW 1 (-100) [] = some (-10, [arNeg]) ∧
    (-10 : ℚ) < 0 :=
  ⟨rfl, by norm_num⟩

/-- C9 amended: whenever the subtotal handed to `compute_discounts` is
nonnegative, the selected discount is nonnegative (zero-amount tiered
candidates may still carry one `AppliedRule`), at most one rule is
returned, and `subtotal - discount` never exceeds the subtotal. -/
theorem discount_nonneg_amended (rules : List Rule) (p : Product) (q : Int)
    (st : ℚ) (attrs : JDict) (d : ℚ) (aps : List AppliedRule)
    (hst : 0 ≤ st)
    (h : compute_discounts rules p q st attrs = some (d, aps)) :
    0 ≤ d ∧ aps.length ≤ 1 ∧ st - d ≤ st := by
  obtain ⟨cands, hc, hsel⟩ := compute_discounts_inv h
  have hnn : ∀ c ∈ cands, 0 ≤ c.amount := by
    intro c hcm
    obtain ⟨r, _, hs⟩ := candidatesList_mem p q st attrs _ cands hc c hcm
    exact discountStep_nonneg hst hs
  have hd : 0 ≤ d ∧ aps.length ≤ 1 := by
    cases cands with
    | nil =>
        simp only [selectBest] at hsel
        obtain ⟨rfl, rfl⟩ := Prod.mk.injEq .. ▸ hsel.symm
        exact ⟨le_refl 0, by simp⟩
    | cons c0 cs =>
        simp only [selectBest] at hsel
        obtain ⟨hd, haps⟩ := Prod.mk.injEq .. ▸ hsel.symm
        obtain ⟨l1, l2, heq, hle, hlt⟩ := maxByAmount_first_max cs c0
        have hbmem : maxByAmount c0 cs ∈ c0 :: cs := by
          rw [heq]
          exact List.mem_append_right l1 (List.mem_cons_self _ _)
        refine ⟨?_, by rw [haps]; simp⟩
        rw [hd]
        exact roundCur_nonneg (hnn _ hbmem)
  exact ⟨hd.1, hd.2, by linarith [hd.1]⟩

unseal Rat.add Rat.mul Rat.inv Rat.sub Rat.ofScientific in
theorem discount_nonneg_amended_witness :
    (0 : ℚ) ≤ 3606 / 5 ∧ ([cTierW] : List AppliedRule).length ≤ 1 ∧
      (6010 : ℚ) - 3606 / 5 ≤ 6010 :=
  discount_nonneg_amended [ruleHigh, ruleTier] prodW 60 6010 attrsRed
    (3606 / 5) [cTierW] (by norm_num) rfl

/-! ### C8: the condition matcher -/

/-- The `product_id` check of `_matches_condition`, applied only when the
condition carries the key and the context supplies a product id. -/
def checkProductId (cond : JDict) (pid : Option Int) : Bool :=
  match pid, dictGet cond "product_id" with
  | some p, some v => pyEq v (JVal.num (p : ℚ))
  | _, _ => true

/-- The `min_qty` check, applied only when present and supplied. -/
def checkMinQty (cond : JDict) (qty : Option Int) : Option Bool :=
  match qty, dictGet cond "min_qty" with
  | some q, some v => (intOf v).map (fun m => decide (m ≤ q))
  | _, _ => some true

/-- The `min_order_total` check, applied only when present and supplied. -/
def checkMinOrderTotal (cond : JDict) (tot : Option ℚ) : Option Bool :=
  match tot, dictGet cond "min_order_total" with
  | some t, some v => (floatOf v).map (fun m => decide (m ≤ t))
  | _, _ => some true

/-- The `attributes` submapping check, applied only when context
attributes are supplied. -/
def checkAttributes (cond : JDict) (attrs : Option JDict) : Option Bool :=
  match attrs with
  | some a =>
      match dictOf ((dictGet cond "attributes").getD (JVal.obj [])) with
      | none => none
      | some ac => some (attrsMatch a ac)
  | none => some true

theorem matches_condition_as_checks (rule : Rule) (pid : Option Int)
    (attrs : Option JDict) (qty : Option Int) (tot : Option ℚ) :
    matches_condition rule pid attrs qty tot =
      (if !(checkProductId (rule.condition.getD []) pid) then some false
       else
         match checkMinQty (rule.condition.getD []) qty with
         | none => none
         | some false => some false
         | some true =>
           match checkMinOrderTotal (rule.condition.getD []) tot with
           | none => none
           | some false => some false
           | some true => checkAttributes (rule.condition.getD []) attrs) := by
  unfold matches_condition checkProductId checkMinQty checkMinOrderTotal
    checkAttributes
  rfl

/-- The attributes requirement as the claim words it: every key of the
condition's submapping must exist in the context attributes with a
strictly (structurally) equal value. -/
def specAttrsOK (attributes : JDict) (conds : List (String × JVal)) : Prop :=
  ∀ kv ∈ conds, ∃ v, dictGet attributes kv.1 = some v ∧ v = kv.2

/-- The rule used by the C8 counterexample: its condition expects the
attribute `color` to equal JSON `null`. -/
def ruleNullAttr : Rule := ⟨8, "Null attr", "config_adjustment",
  some [("attributes", JVal.obj [("color", JVal.null)])], none, true, 1⟩

/-- C8 counterexample: the matcher returns true although the key `color`
is absent from the (empty) context attributes — an absent key compares as
`None` and so Python-equals an expected `null`, contradicting the claim
that every key must exist in the context attributes and that an absent key
fails the whole condition. -/
theorem null_attribute_matches_counterexample :
    matches_condition ruleNullAttr (some 1) (some []) none none = some true ∧
    ¬ specAttrsOK [] [("color", JVal.null)] := by
  constructor
  · rfl
  · intro hspec
    obtain ⟨v, hv, -⟩ := hspec ("color", JVal.null) (by simp)
    simp [dictGet] at hv

/-- C8 amended: the matcher returns true exactly when every present check
passes (logical AND, each check applied only when its key is present in
the condition and the context supplies the value; no checks means match);
the attributes submapping check compares each expected value with the
context value under Python equality, an absent context key being treated
as `null` — so an expected `null` matches an absent key, and numbers and
booleans compare by numeric value rather than by strict type-equal
equality. -/
theorem matches_condition_characterization_amended :
    (∀ (rule : Rule) (pid : Option Int) (attrs : Option JDict)
        (qty : Option Int) (tot : Option ℚ),
      matches_condition rule pid attrs qty tot = some true ↔
        (checkProductId (rule.condition.getD []) pid = true ∧
         checkMinQty (rule.condition.getD []) qty = some true ∧
         checkMinOrderTotal (rule.condition.getD []) tot = some true ∧
         checkAttributes (rule.condition.getD []) attrs = some true)) ∧
    (∀ (a : JDict) (ac : List (String × JVal)),
      attrsMatch a ac = true ↔
        ∀ kv ∈ ac, pyEq ((dictGet a kv.1).getD JVal.null) kv.2 = true) := by
  constructor
  · intro rule pid attrs qty tot
    rw [matches_condition_as_checks]
    cases hp : checkProductId (rule.condition.getD []) pid
    · simp [hp]
    · simp only [Bool.not_true, Bool.false_eq_true, if_false]
      cases hq : checkMinQty (rule.condition.getD []) qty with
      | none => simp
      | some bq =>
          cases bq
          · simp
          · cases ht : checkMinOrderTotal (rule.condition.getD []) tot with
            | none => simp
            | some bt =>
                cases bt
                · simp
                · simp
  · intro a ac
    induction ac with
    | nil => simp [attrsMatch]
    | cons kv rest ih =>
        obtain ⟨k, v⟩ := kv
        show (if pyEq ((dictGet a k).getD JVal.null) v then attrsMatch a rest
          else false) = true ↔ _
        split
        · rename_i hkv
          rw [ih]
          simp [hkv]
        · rename_i hkv
          simp only [Bool.false_eq_true, false_iff]
          intro hall
          exact hkv (hall (k, v) (by simp))

/-! ### C6: tolerance of malformed rule parameters -/

/-- The malformed rule of the C6 counterexample: its `amount` parameter is
the non-numeric string "abc". -/
def ruleBadAmount : Rule := ⟨9, "Bad amount", "config_adjustment", none,
  some [("attribute", JVal.str "color"), ("amount", JVal.str "abc")],
  true, 10⟩

/-- C6 counterexample: `Decimal(str("abc"))` raises `InvalidOperation`, so
`compute_config_adjustments` propagates an exception (modelled as `none`)
for the whole computation instead of treating the malformed rule as not
firing. -/
theorem malformed_param_raises_counterexample :
    compute_config_adjustments [ruleBadAmount] prodW [] = none := rfl

/-- A parameter value `Decimal(str(...))` accepts: a number or a plain
numeral string. -/
def numLike (v : JVal) : Bool := (decimalOf v).isSome

/-- A value usable as a Python dict key without a `TypeError`. -/
def hashableKey : JVal → Bool
  | JVal.arr _ => false
  | JVal.obj _ => false
  | _ => true

/-- The rule's effective `attribute` key (absent and null collapsing to
none) is a hashable value when present. -/
def attrKeyOK (r : Rule) : Bool :=
  match (match dictGet (r.parameters.getD []) "attribute" with
         | some JVal.null => none
         | o => o) with
  | some k => hashableKey k
  | none => true

/-- Leniently well-formed parameters of a `config_adjustment` rule:
`amount` and `percentage` each absent, a number, or a numeral string, and
the `attribute` key (when the `equals` check will consult it) hashable. -/
def configParamsOK (r : Rule) : Bool :=
  numLike ((dictGet (r.parameters.getD []) "amount").getD (JVal.num 0)) &&
  numLike ((dictGet (r.parameters.getD []) "percentage").getD (JVal.num 0)) &&
  attrKeyOK r

/-- A condition whose `attributes` entry (defaulting to `{}`) is a
mapping; anything else raises in `_matches_condition`. -/
def condAttrsOK (r : Rule) : Bool :=
  (dictOf ((dictGet (r.condition.getD []) "attributes").getD
    (JVal.obj []))).isSome

theorem configAdjAmount_total {p : Product} {r : Rule} {params : JDict}
    {ak : JVal}
    (ha : numLike ((dictGet params "amount").getD (JVal.num 0)) = true)
    (hp : numLike ((dictGet params "percentage").getD (JVal.num 0)) = true) :
    (configAdjAmount p r params ak).isSome := by
  unfold configAdjAmount
  unfold numLike at ha hp
  cases h1 : decimalOf ((dictGet params "amount").getD (JVal.num 0)) with
  | none => rw [h1] at ha; simp at ha
  | some amt =>
      cases h2 : decimalOf ((dictGet params "percentage").getD (JVal.num 0)) with
      | none => rw [h2] at hp; simp at hp
      | some pct => simp [h1, h2]

theorem configAdjStep_total (p : Product) (attrs : JDict) (r : Rule)
    (hok : r.rule_type = "config_adjustment" →
      configParamsOK r = true ∧ condAttrsOK r = true) :
    (configAdjStep p attrs r).isSome := by
  unfold configAdjStep
  split
  · simp
  · rename_i hty
    obtain ⟨hparams, hcond⟩ := hok (not_not.mp hty)
    have hm : (matches_condition r (some p.id) (some attrs) none none).isSome := by
      rw [matches_condition_as_checks]
      split
      · simp
      · have hq : checkMinQty (r.condition.getD []) none = some true := rfl
        have ht : checkMinOrderTotal (r.condition.getD []) none = some true := rfl
        rw [hq, ht]
        unfold checkAttributes
        unfold condAttrsOK at hcond
        cases hd : dictOf ((dictGet (r.condition.getD []) "attributes").getD
            (JVal.obj [])) with
        | none => rw [hd] at hcond; simp at hcond
        | some ac => simp [hd]
    obtain ⟨m, hm'⟩ := Option.isSome_iff_exists.mp hm
    rw [hm']
    cases m
    · simp
    · simp only []
      simp only [configParamsOK, Bool.and_eq_true] at hparams
      obtain ⟨⟨hamt, hpct⟩, hkey⟩ := hparams
      split
      · simp
      · rename_i ak hak
        have hhash : hashableKey ak = true := by
          unfold attrKeyOK at hkey
          simp only [hak] at hkey
          exact hkey
        have hA : (configAdjAmount p r (r.parameters.getD []) ak).isSome :=
          configAdjAmount_total hamt hpct
        split
        · rename_i expected hexp
          cases hpg : pyDictGet attrs ak with
          | none =>
              cases ak <;> simp_all [pyDictGet, hashableKey]
          | some got =>
              simp only [hpg]
              split
              · exact hA
              · simp
        · exact hA

theorem configAdjList_total (p : Product) (attrs : JDict) :
    ∀ rs : List Rule,
      (∀ r ∈ rs, r.rule_type = "config_adjustment" →
        configParamsOK r = true ∧ condAttrsOK r = true) →
      (configAdjList p attrs rs).isSome := by
  intro rs
  induction rs with
  | nil => intro _; simp [configAdjList]
  | cons r rs ih =>
      intro h
      have hstep := configAdjStep_total p attrs r
        (h r (List.mem_cons_self r rs))
      have hrec := ih (fun r' hr' => h r' (List.mem_cons_of_mem _ hr'))
      obtain ⟨step, hstep'⟩ := Option.isSome_iff_exists.mp hstep
      obtain ⟨⟨t, aps⟩, hrec'⟩ := Option.isSome_iff_exists.mp hrec
      cases step with
      | none => simp [configAdjList, hstep', hrec']
      | some ar => simp [configAdjList, hstep', hrec']

/-- A value `int(...)` accepts: a number, a bool, or an integer numeral
string — but not a fractional numeral string like "12.5". -/
def intLike (v : JVal) : Bool := (intOf v).isSome

/-- A value `float(...)` accepts. -/
def floatLike (v : JVal) : Bool := (floatOf v).isSome

/-- Condition entries that `_matches_condition` parses when quantity and
order total are supplied: `min_qty` int-parseable, `min_order_total`
float-parseable, `attributes` mapping-shaped. -/
def condChecksOK (r : Rule) : Bool :=
  (match dictGet (r.condition.getD []) "min_qty" with
   | some v => intLike v
   | none => true) &&
  (match dictGet (r.condition.getD []) "min_order_total" with
   | some v => floatLike v
   | none => true) &&
  condAttrsOK r

/-- A tier entry the scan of lines 106-112 parses without raising: a
mapping whose `min_qty` is int-parseable and whose `percent_off` is
decimal-parseable (each key may also be absent). -/
def tierOK (t : JVal) : Bool :=
  match dictOf t with
  | none => false
  | some td =>
      intLike ((dictGet td "min_qty").getD (JVal.num 0)) &&
      numLike ((dictGet td "percent_off").getD (JVal.num 0))

/-- Leniently well-formed parameters of a discount rule: the three
`Decimal(str(...))` fields of an `order_discount` absent, numeric or
numeral strings; the tiers of a `tiered_discount` an iterable of
well-formed tier mappings. -/
def discountParamsOK (r : Rule) : Bool :=
  if r.rule_type = "order_discount" then
    numLike ((dictGet (r.parameters.getD []) "min_total").getD (JVal.num 0)) &&
    numLike ((dictGet (r.parameters.getD []) "percentage").getD (JVal.num 0)) &&
    numLike ((dictGet (r.parameters.getD []) "amount").getD (JVal.num 0))
  else
    match listOf ((dictGet (r.parameters.getD []) "tiers").getD (JVal.arr [])) with
    | none => false
    | some ts => ts.all tierOK

theorem tierParsed_total {t : JVal} (h : tierOK t = true) :
    (tierParsed t).isSome := by
  unfold tierOK at h
  unfold tierParsed
  cases hd : dictOf t with
  | none => rw [hd] at h; simp at h
  | some td =>
      simp only [hd] at h
      simp only [Bool.and_eq_true] at h
      obtain ⟨hmq, hpo⟩ := h
      unfold intLike at hmq
      unfold numLike at hpo
      simp only [hd, Option.some_bind, Option.bind_eq_bind]
      cases hi : intOf ((dictGet td "min_qty").getD (JVal.num 0)) with
      | none => rw [hi] at hmq; simp at hmq
      | some mq =>
          cases hp : decimalOf ((dictGet td "percent_off").getD (JVal.num 0)) with
          | none => rw [hp] at hpo; simp at hpo
          | some po => simp [hi, hp]

theorem bestTierPercent_total (q : Int) :
    ∀ (ts : List JVal) (b : ℚ), ts.all tierOK = true →
      (bestTierPercent q b ts).isSome := by
  intro ts
  induction ts with
  | nil => intro b _; simp [bestTierPercent]
  | cons t ts ih =>
      intro b hall
      simp only [List.all_cons, Bool.and_eq_true] at hall
      obtain ⟨mp, hmp⟩ := Option.isSome_iff_exists.mp (tierParsed_total hall.1)
      show ((tierParsed t).bind _).isSome
      rw [hmp]
      simp only [Option.some_bind]
      exact ih _ hall.2

theorem matches_condition_total (r : Rule) (pid : Option Int) (attrs : JDict)
    (qty : Option Int) (tot : Option ℚ) (hc : condChecksOK r = true) :
    (matches_condition r pid (some attrs) qty tot).isSome := by
  simp only [condChecksOK, Bool.and_eq_true] at hc
  obtain ⟨⟨hq, ht⟩, ha⟩ := hc
  rw [matches_condition_as_checks]
  split
  · simp
  · have hq' : (checkMinQty (r.condition.getD []) qty).isSome := by
      unfold checkMinQty
      cases qty with
      | none => simp
      | some q0 =>
          cases hv : dictGet (r.condition.getD []) "min_qty" with
          | none => simp
          | some v =>
              simp only [hv] at hq
              unfold intLike at hq
              cases hi : intOf v with
              | none => rw [hi] at hq; simp at hq
              | some m => simp [hi]
    obtain ⟨bq, hbq⟩ := Option.isSome_iff_exists.mp hq'
    simp only [hbq]
    cases bq
    · simp
    · have ht' : (checkMinOrderTotal (r.condition.getD []) tot).isSome := by
        unfold checkMinOrderTotal
        cases tot with
        | none => simp
        | some t0 =>
            cases hv : dictGet (r.condition.getD []) "min_order_total" with
            | none => simp
            | some v =>
                simp only [hv] at ht
                unfold floatLike at ht
                cases hi : floatOf v with
                | none => rw [hi] at ht; simp at ht
                | some m => simp [hi]
      obtain ⟨bt, hbt⟩ := Option.isSome_iff_exists.mp ht'
      simp only [hbt]
      cases bt
      · simp
      · unfold checkAttributes
        unfold condAttrsOK at ha
        cases hd : dictOf ((dictGet (r.condition.getD []) "attributes").getD
            (JVal.obj [])) with
        | none => rw [hd] at ha; simp at ha
        | some ac => simp [hd]

theorem discountStep_total (p : Product) (q : Int) (st : ℚ) (attrs : JDict)
    (r : Rule)
    (hok : (r.rule_type = "order_discount" ∨ r.rule_type = "tiered_discount") →
      discountParamsOK r = true ∧ condChecksOK r = true) :
    (discountStep p q st attrs r).isSome := by
  unfold discountStep
  split
  · simp
  · rename_i hty
    have hty' : r.rule_type = "order_discount" ∨
        r.rule_type = "tiered_discount" := by
      rcases not_and_or.mp hty with h | h
      · exact Or.inl (not_not.mp h)
      · exact Or.inr (not_not.mp h)
    obtain ⟨hparams, hcond⟩ := hok hty'
    have hm := matches_condition_total r (some p.id) attrs (some q) (some st)
      hcond
    obtain ⟨m, hm'⟩ := Option.isSome_iff_exists.mp hm
    simp only [hm']
    cases m
    · simp
    · simp only []
      split
      · rename_i hord
        rw [discountParamsOK, if_pos hord] at hparams
        simp only [Bool.and_eq_true] at hparams
        obtain ⟨⟨hmin, hpct⟩, hamt⟩ := hparams
        unfold numLike at hmin hpct hamt
        cases h1 : decimalOf ((dictGet (r.parameters.getD []) "min_total").getD
            (JVal.num 0)) with
        | none => rw [h1] at hmin; simp at hmin
        | some min_total =>
            simp only [h1]
            split
            · simp
            · cases h2 : decimalOf ((dictGet (r.parameters.getD [])
                  "percentage").getD (JVal.num 0)) with
              | none => rw [h2] at hpct; simp at hpct
              | some pct =>
                  simp only [h2]
                  cases h3 : decimalOf ((dictGet (r.parameters.getD [])
                      "amount").getD (JVal.num 0)) with
                  | none => rw [h3] at hamt; simp at hamt
                  | some amt =>
                      simp only [h3]
                      split <;> split <;> simp
      · rename_i hord
        rw [discountParamsOK, if_neg hord] at hparams
        cases hls : listOf ((dictGet (r.parameters.getD []) "tiers").getD
            (JVal.arr [])) with
        | none => rw [hls] at hparams; simp at hparams
        | some ts =>
            simp only [hls] at hparams
            simp only [hls]
            obtain ⟨best, hbest⟩ := Option.isSome_iff_exists.mp
              (bestTierPercent_total q ts 0 hparams)
            simp only [hbest]
            split <;> simp

theorem candidatesList_total (p : Product) (q : Int) (st : ℚ) (attrs : JDict) :
    ∀ rs : List Rule,
      (∀ r ∈ rs,
        (r.rule_type = "order_discount" ∨ r.rule_type = "tiered_discount") →
        discountParamsOK r = true ∧ condChecksOK r = true) →
      (candidatesList p q st attrs rs).isSome := by
  intro rs
  induction rs with
  | nil => intro _; simp [candidatesList]
  | cons r rs ih =>
      intro h
      have hstep := discountStep_total p q st attrs r
        (h r (List.mem_cons_self r rs))
      have hrec := ih (fun r' hr' => h r' (List.mem_cons_of_mem _ hr'))
      obtain ⟨step, hstep'⟩ := Option.isSome_iff_exists.mp hstep
      obtain ⟨rest, hrec'⟩ := Option.isSome_iff_exists.mp hrec
      cases step with
      | none => simp [candidatesList, hstep', hrec']
      | some c => simp [candidatesList, hstep', hrec']

/-- The rule whose tier carries the fractional numeral string "12.5" as
`min_qty`: `int("12.5")` raises `ValueError` in the tier scan. -/
def ruleBadMinQty : Rule := ⟨12, "Bad min qty", "tiered_discount", none,
  some [("tiers", JVal.arr
    [JVal.obj [("min_qty", JVal.str "12.5"),
               ("percent_off", JVal.num 10)]])], true, 10⟩

/-- C6 amended: missing parameter keys default to 0 everywhere, and
numeric values supplied as numbers or as plain numeral strings are
normalized to exact decimal wherever the engine parses with
`Decimal(str(...))`: pricing raises no error when every active
`config_adjustment` rule has number-or-numeral-string `amount` and
`percentage`, a hashable attribute key and a mapping-shaped condition
`attributes`, and every active discount rule has number-or-numeral-string
`min_total`/`percentage`/`amount` (or, for tiers, a list of mappings with
int-parseable `min_qty` and decimal-parseable `percent_off`) and
parseable condition entries.  Outside these shapes a wrong-typed value is
not treated as "rule does not fire" but raises and aborts the whole call:
`amount: "abc"` raises in `Decimal` (the counterexample), and even the
numeral string "12.5" in a tier's `min_qty` raises in `int()`, which only
accepts integer numeral strings — as the last conjunct records. -/
theorem config_adjustments_tolerant_amended (rules : List Rule) (p : Product)
    (q : Int) (st : ℚ) (attrs : JDict)
    (hc : ∀ r ∈ load_active_rules rules, r.rule_type = "config_adjustment" →
      configParamsOK r = true ∧ condAttrsOK r = true)
    (hd : ∀ r ∈ load_active_rules rules,
      (r.rule_type = "order_discount" ∨ r.rule_type = "tiered_discount") →
      discountParamsOK r = true ∧ condChecksOK r = true) :
    (compute_config_adjustments rules p attrs).isSome ∧
    (compute_discounts rules p q st attrs).isSome ∧
    compute_discounts [ruleBadMinQty] prodW 1 100 [] = none := by
  refine ⟨?_, ?_, rfl⟩
  · unfold compute_config_adjustments
    have := configAdjList_total p attrs (load_active_rules rules) hc
    obtain ⟨⟨t, aps⟩, h'⟩ := Option.isSome_iff_exists.mp this
    simp [h']
  · unfold compute_discounts
    have := candidatesList_total p q st attrs (load_active_rules rules) hd
    obtain ⟨cands, h'⟩ := Option.isSome_iff_exists.mp this
    simp [h']

/-- The well-formed config rule of the C6 witness: its numeric parameters
arrive as the strings "12.5" and "3". -/
def ruleStrAmount : Rule := ⟨10, "String params", "config_adjustment", none,
  some [("attribute", JVal.str "color"), ("amount", JVal.str "12.5"),
        ("percentage", JVal.str "3")], true, 10⟩

/-- The well-formed tiered rule of the C6 witness: its tier fields arrive
as the strings "10" and "7.5". -/
def ruleTierStr : Rule := ⟨13, "String tier", "tiered_discount", none,
  some [("tiers", JVal.arr
    [JVal.obj [("min_qty", JVal.str "10"),
               ("percent_off", JVal.str "7.5")]])], true, 20⟩

theorem config_adjustments_tolerant_amended_witness :
    (compute_config_adjustments [ruleStrAmount, ruleTierStr] prodW []).isSome ∧
    (compute_discounts [ruleStrAmount, ruleTierStr] prodW 1 100 []).isSome ∧
    compute_discounts [ruleBadMinQty] prodW 1 100 [] = none :=
  config_adjustments_tolerant_amended [ruleStrAmount, ruleTierStr] prodW 1 100 []
    (by
      intro r hr hty
      have hmem : r = ruleStrAmount ∨ r = ruleTierStr := by
        have h2 : load_active_rules [ruleStrAmount, ruleTierStr] =
            [ruleStrAmount, ruleTierStr] := rfl
        rw [h2] at hr
        simpa using hr
      rcases hmem with rfl | rfl
      · exact ⟨rfl, rfl⟩
      · exact absurd hty (by decide))
    (by
      intro r hr hty
      have hmem : r = ruleStrAmount ∨ r = ruleTierStr := by
        have h2 : load_active_rules [ruleStrAmount, ruleTierStr] =
            [ruleStrAmount, ruleTierStr] := rfl
        rw [h2] at hr
        simpa using hr
      rcases hmem with rfl | rfl
      · rcases hty with h | h <;> exact absurd h (by decide)
      · exact ⟨rfl, rfl⟩)

/-! ### C7: decimal versus binary floating point in the order-total check -/

/-- A discount rule whose `min_order_total` is the exact decimal expansion
of the IEEE-754 double nearest to 0.1 — a bound finer than what binary
floating point can distinguish from 0.1 itself. -/
def ruleFloatEdge : Rule := ⟨11, "Float edge", "order_discount",
  some [("min_order_total",
    JVal.str "0.1000000000000000055511151231257827021181583404541015625")],
  some [("amount", JVal.num 1)], true, 10⟩

unseal Rat.add Rat.mul Rat.inv Rat.sub Rat.ofScientific in
/-- C7: under exact decimal semantics a subtotal of 0.1 does NOT meet the
condition `min_order_total = 0.1000000000000000055511...0625`, so the rule
must not fire.  The source instead evaluates
`order_total < float(cond["min_order_total"])` with
`order_total = float(subtotal)` (rules_engine.py lines 81 and 157), i.e.
it compares `0.1 < 0.1` in binary doubles, which is false, letting the
rule fire — the order-total condition check is performed in binary
floating point, not exact decimal.  This theorem records the exact-decimal
verdict at that input. -/
theorem order_total_condition_exact_decimal :
    matches_condition ruleFloatEdge (some 1) (some []) none
      (some (1 / 10)) = some false := rfl
